import Mathlib

/-!
Verification of the Laurent-polynomial / Fox-calculus pipeline of `simpy.py`.

A Python dict mapping integer exponents to integer coefficients is modelled as
an association list sorted strictly by key (`Dict` with the invariant `DWF`).
Python dict equality ignores insertion order, so the sorted list is a canonical
representative of the observable value of a dict; every operation below
produces sorted output when its dict inputs are sorted.
-/

/-- Dict models a Python dict {int: int}: a list of (key, value) pairs.
The canonical representative keeps keys strictly ascending (`DWF`). -/
abbrev Dict := List (Int × Int)

/-- DWF d says the association list is sorted with strictly ascending keys,
the canonical form of a Python dict value; in particular keys are distinct. -/
def DWF (d : Dict) : Prop := d.Pairwise (fun x y => x.1 < y.1)

instance (d : Dict) : Decidable (DWF d) := by
  unfold DWF; infer_instance

/-- dlookup d k returns the value stored at key k (Python `d[k]` / `d.get(k)`). -/
def dlookup : Dict → Int → Option Int
  | [], _ => none
  | e :: rest, k => if e.1 = k then some e.2 else dlookup rest k

/-- coeff d k is the coefficient of t^k read off the dict, 0 when the key is
absent (the `defaultdict(int)` view used by `add_laurent`/`multiply_laurent`). -/
def coeff (d : Dict) (k : Int) : Int := (dlookup d k).getD 0

/-- dkeys d lists the keys of the dict (Python `d.keys()`). -/
def dkeys (d : Dict) : List Int := d.map (·.1)

/-- dinsert d k v stores v at key k (Python `d[k] = v`), keeping the canonical
sorted order when d is sorted. -/
def dinsert : Dict → Int → Int → Dict
  | [], k, v => [(k, v)]
  | e :: rest, k, v =>
    if k < e.1 then (k, v) :: e :: rest
    else if k = e.1 then (k, v) :: rest
    else e :: dinsert rest k v

/-- Clean d says no entry of the dict carries coefficient 0, the invariant the
spec imposes on simplified Laurent polynomials. -/
def Clean (d : Dict) : Prop := ∀ e ∈ d, e.2 ≠ 0

instance (d : Dict) : Decidable (Clean d) := by
  unfold Clean; infer_instance

/-- dinsertAdd d k v performs the defaultdict update `d[k] += v` used by the
accumulation loops of `add_laurent` and `multiply_laurent`: add v to the value
at key k, treating an absent key as 0 and keeping the canonical sorted order. -/
def dinsertAdd : Dict → Int → Int → Dict
  | [], k, v => [(k, v)]
  | e :: rest, k, v =>
    if k < e.1 then (k, v) :: e :: rest
    else if k = e.1 then (e.1, e.2 + v) :: rest
    else e :: dinsertAdd rest k v

/-- daccum d acc runs the loop `for power in d: acc[power] += d[power]` of
`add_laurent` over the accumulating defaultdict acc. -/
def daccum (d acc : Dict) : Dict :=
  d.foldl (fun acc e => dinsertAdd acc e.1 e.2) acc

/-- add_laurent poly1 poly2 models `add_laurent`: accumulate both dicts into a
defaultdict key-wise, then keep only the keys whose summed coefficient is
nonzero. -/
def add_laurent (poly1 poly2 : Dict) : Dict :=
  (daccum poly2 (daccum poly1 [])).filter (fun e => e.2 ≠ 0)

/-- shiftScale e d is the inner loop of `multiply_laurent` for the single entry
e of the first factor: every entry (p, c) of d contributes (e.1 + p, e.2 * c). -/
def shiftScale (e : Int × Int) (d : Dict) : Dict :=
  d.map (fun f => (e.1 + f.1, e.2 * f.2))

/-- mulAcc is the accumulated defaultdict of the double loop of
`multiply_laurent` (`poly[power1 + power2] += poly1[power1]*poly2[power2]`)
before the final nonzero filter. -/
def mulAcc (poly1 poly2 : Dict) : Dict :=
  poly1.foldl (fun acc e => daccum (shiftScale e poly2) acc) []

/-- multiply_laurent poly1 poly2 models `multiply_laurent`: the convolution of
the two dicts, accumulated over all key pairs and filtered to nonzero entries. -/
def multiply_laurent (poly1 poly2 : Dict) : Dict :=
  (mulAcc poly1 poly2).filter (fun e => e.2 ≠ 0)

/-- simplify_run models the observable behaviour of `simplify_laurent` under
Python 3: the loop `for k in poly.keys(): if poly[k] == 0: poly.pop(k)`
iterates over a live view, so the first pop changes the dict's size and the
following iterator step raises RuntimeError. The result is the pair
(outcome, final state of the argument dict): outcome `none` means the
RuntimeError, and the final state has lost exactly the popped entry. -/
def simplify_run : Dict → Option Dict × Dict
  | [] => (some [], [])
  | e :: rest =>
    if e.2 = 0 then (none, rest)
    else
      match simplify_run rest with
      | (none, rest2) => (none, e :: rest2)
      | (some _, rest2) => (some (e :: rest2), e :: rest2)

/-- simplify_laurent is the returned value of `simplify_laurent` (`none` for
the RuntimeError raised as soon as a zero coefficient is popped). -/
def simplify_laurent (poly : Dict) : Option Dict := (simplify_run poly).1

/-- dmax models Python `max(poly)`: the maximum of the key set, `none` (a
ValueError) on an empty dict. -/
def dmax : Dict → Option Int
  | [] => none
  | e :: rest =>
    some (match dmax rest with
          | none => e.1
          | some m => max e.1 m)

/-- dmin models Python `min(poly)`: the minimum of the key set, `none` (a
ValueError) on an empty dict. -/
def dmin : Dict → Option Int
  | [] => none
  | e :: rest =>
    some (match dmin rest with
          | none => e.1
          | some m => min e.1 m)

/-- symmetrize_laurent models `symmetrize_laurent`: with k = (max + min) // 2
(Python floor division), multiply by the monomial t^(-k); `none` is the
ValueError raised by max/min on an empty dict. -/
def symmetrize_laurent (poly : Dict) : Option Dict :=
  match dmax poly, dmin poly with
  | some mx, some mn =>
    some (multiply_laurent [(-(Int.fdiv (mx + mn) 2), 1)] poly)
  | _, _ => none

/-- positive_laurent models `positive_laurent`: multiply by t^(-min);
`none` is the ValueError raised by min on an empty dict. -/
def positive_laurent (poly : Dict) : Option Dict :=
  match dmin poly with
  | some mn => some (multiply_laurent [(-mn, 1)] poly)
  | none => none

/-- int_div_trunc a b models Python `int(a/b)` on integers as the exact
quotient rounded toward zero. The model is only faithful on part of the
domain: Python first computes a/b as the correctly rounded float of the true
quotient, so `int(a/b)` agrees with the exact truncation exactly when that
rounding is harmless - in particular whenever b divides a and the quotient
has absolute value at most 2^53, so that it is exactly representable as a
float. Outside that range the two diverge (Python gives
int(70000000000000007/7) = 10^16, one less than the exact quotient, and
raises OverflowError when the quotient exceeds the float range); every
theorem in this file applies divide_laurent only under hypotheses, or at
concrete literals, that keep each division step inside the faithful range. -/
def int_div_trunc (a b : Int) : Int := Int.tdiv a b

/-- divide_laurent models `divide_laurent` with an explicit recursion budget:
`none` covers the three ways the Python call fails to return (ValueError from
`max` on an empty dict, ZeroDivisionError when the divisor's leading
coefficient is 0, and nontermination, which exhausts any finite fuel). The
quotient dict is threaded explicitly; the Python default argument corresponds
to passing the current state of the shared `defaultdict(int)`. -/
def divide_laurent : Nat → Dict → Dict → Dict → Option Dict
  | 0, _, _, _ => none
  | fuel + 1, poly1, poly2, quotient =>
    match dmax poly1, dmax poly2 with
    | some m1, some m2 =>
      let k := m1 - m2
      if k = 0 then some (dinsert quotient 0 1)
      else
        if coeff poly2 m2 = 0 then none
        else
          let c := int_div_trunc (coeff poly1 m1) (coeff poly2 m2)
          divide_laurent fuel
            (add_laurent poly1 (multiply_laurent [(k, -c)] poly2))
            poly2 (dinsert quotient k c)
    | _, _ => none

/-- allones p models `allones`: the dict of the polynomial 1 + t + ... +
t^(p-1). -/
def allones (p : Nat) : Dict := (List.range p).map (fun i => ((i : Int), 1))

/-- simple_relator models `simple_relator`: for i in 0..p-1 append "ab" when
(i*q) % p < k and "a" otherwise. -/
def simple_relator (p q k : Nat) : List Char :=
  (List.range p).foldl
    (fun relator i =>
      relator ++ (if (i * q) % p < k then ['a', 'b'] else ['a'])) []

/-- hedden_relator models `hedden_relator`: the fixed prefix "abAba", then for
i in 0..p-2 append "ba" when (i*q) % p + q >= p and "a" otherwise. -/
def hedden_relator (p q : Nat) : List Char :=
  (List.range (p - 1)).foldl
    (fun relator i =>
      relator ++ (if p ≤ (i * q) % p + q then ['b', 'a'] else ['a']))
    ['a', 'b', 'A', 'b', 'a']

/-- GenImages is the dict returned by `abelianization`: the images of the four
generators "a", "b", "A", "B" in the abelianization Z. -/
structure GenImages where
  ima : Int
  imb : Int
  imA : Int
  imB : Int
deriving DecidableEq, Repr

/-- GenImages.get g c is the dict access `g[c]`; the relators only ever contain
the four keyed letters, so the fallback 0 (a KeyError in Python) is never hit
by any call made in this file. -/
def GenImages.get (g : GenImages) (c : Char) : Int :=
  if c = 'a' then g.ima
  else if c = 'b' then g.imb
  else if c = 'A' then g.imA
  else if c = 'B' then g.imB
  else 0

/-- abelianization models `abelianization`: j counts "a", k counts every other
letter, and the images are a -> k, b -> -j, A -> -k, B -> j. -/
def abelianization (relator : List Char) : GenImages :=
  let j : Int := relator.countP (fun c => c = 'a')
  let k : Int := relator.countP (fun c => ¬ c = 'a')
  ⟨k, -j, -k, j⟩

/-- hedden_base ab c is the single-letter case of
`hedden_knot.free_differential_a`: "a" -> {0:1}, "b" -> {0:0}, anything else
-> {ab["a"]: -1}. -/
def hedden_base (ab : GenImages) (c : Char) : Dict :=
  if c = 'a' then [(0, 1)]
  else if c = 'b' then [(0, 0)]
  else [(ab.ima, -1)]

/-- simple_base c is the single-letter case of
`simple_knot.free_differential_a`: "a" -> {0:1}, everything else -> {0:0}. -/
def simple_base (c : Char) : Dict :=
  if c = 'a' then [(0, 1)] else [(0, 0)]

/-- fda_hedden models `hedden_knot.free_differential_a` for a fixed
abelianization dict ab: empty word -> Python None; a single letter ->
`hedden_base`; a longer word w -> fda(w[0]) + t^(ab[w[0]]) * fda(w[1:]).
The recursive call fda(w[0]) of the source always lands in the single-letter
case, so it is written here as `hedden_base ab c`, which keeps the recursion
structural; `fda_hedden ab [c] = some (hedden_base ab c)` holds by definition. -/
def fda_hedden (ab : GenImages) : List Char → Option Dict
  | [] => none
  | [c] => some (hedden_base ab c)
  | c :: c2 :: rest =>
    match fda_hedden ab (c2 :: rest) with
    | some d2 =>
      some (add_laurent (hedden_base ab c)
        (multiply_laurent [(ab.get c, 1)] d2))
    | none => none

/-- fda_simple models `simple_knot.free_differential_a`: identical recursion,
with the two-case single-letter rule `simple_base`. -/
def fda_simple (ab : GenImages) : List Char → Option Dict
  | [] => none
  | [c] => some (simple_base c)
  | c :: c2 :: rest =>
    match fda_simple ab (c2 :: rest) with
    | some d2 =>
      some (add_laurent (simple_base c)
        (multiply_laurent [(ab.get c, 1)] d2))
    | none => none

/-- hedden_alexander models the `alexander_polynomial` field computed by
`hedden_knot.__init__`: symmetrize(positive(simplify(fda(relator)))), where the
abelianization is that of the Hedden relator. -/
def hedden_alexander (p q : Nat) : Option Dict :=
  let relator := hedden_relator p q
  let ab := abelianization relator
  match fda_hedden ab relator with
  | none => none
  | some raw =>
    match simplify_laurent raw with
    | none => none
    | some s =>
      match positive_laurent s with
      | none => none
      | some pos => symmetrize_laurent pos

/-- simple_alexander models the `alexander_polynomial` field computed by
`simple_knot.__init__`: symmetrize(divide(positive(simplify(fda(relator))),
allones(p), {0:0})); fuel bounds the recursion depth of the division. -/
def simple_alexander (fuel p q k : Nat) : Option Dict :=
  let relator := simple_relator p q k
  let ab := abelianization relator
  match fda_simple ab relator with
  | none => none
  | some raw =>
    match simplify_laurent raw with
    | none => none
    | some s =>
      match positive_laurent s with
      | none => none
      | some pos =>
        match divide_laurent fuel pos (allones p) [(0, 0)] with
        | none => none
        | some quot => symmetrize_laurent quot

/-- coeffSum d is the sum of all coefficient values of the dict, i.e. the
evaluation of the Laurent polynomial at t = 1. -/
def coeffSum (d : Dict) : Int := (d.map (·.2)).sum

/-! ### Basic lemmas about the dict model -/

theorem dlookup_eq_none_iff {d : Dict} {x : Int} :
    dlookup d x = none ↔ ∀ f ∈ d, f.1 ≠ x := by
  induction d with
  | nil => simp [dlookup]
  | cons e t ih =>
    by_cases h : e.1 = x
    · simp [dlookup, h]
    · simp [dlookup, h, ih]

theorem dlookup_mem {d : Dict} {x v : Int} (h : dlookup d x = some v) :
    (x, v) ∈ d := by
  induction d with
  | nil => simp [dlookup] at h
  | cons e t ih =>
    by_cases he : e.1 = x
    · simp [dlookup, he] at h
      subst he h
      exact List.mem_cons_self _ _
    · simp [dlookup, he] at h
      exact List.mem_cons_of_mem _ (ih h)

theorem dlookup_eq_none_of_lt {d : Dict} {x : Int}
    (h : ∀ f ∈ d, x < f.1) : dlookup d x = none :=
  dlookup_eq_none_iff.mpr (fun f hf => ne_of_gt (h f hf))

theorem coeff_eq_zero_of_lookup_none {d : Dict} {x : Int}
    (h : dlookup d x = none) : coeff d x = 0 := by
  simp [coeff, h]

theorem dlookup_tail_of_head {e : Int × Int} {t : Dict}
    (h : DWF (e :: t)) : dlookup t e.1 = none := by
  rcases List.pairwise_cons.mp h with ⟨h1, _⟩
  exact dlookup_eq_none_iff.mpr (fun f hf => ne_of_gt (h1 f hf))

theorem mem_key_of_dwf {e : Int × Int} {t : Dict} {f : Int × Int}
    (h : DWF (e :: t)) (hf : f ∈ t) : e.1 < f.1 :=
  (List.pairwise_cons.mp h).1 f hf

/-- dlookup_ext: two sorted dicts with the same lookup function are equal —
the observable value of a Python dict determines its canonical form. -/
theorem dlookup_ext {d1 d2 : Dict} (h1 : DWF d1) (h2 : DWF d2)
    (h : ∀ x, dlookup d1 x = dlookup d2 x) : d1 = d2 := by
  induction d1 generalizing d2 with
  | nil =>
    cases d2 with
    | nil => rfl
    | cons f t2 =>
      have := h f.1
      simp [dlookup] at this
  | cons e t1 ih =>
    cases d2 with
    | nil =>
      have := h e.1
      simp [dlookup] at this
    | cons f t2 =>
      have he : dlookup (f :: t2) e.1 = some e.2 := by
        rw [← h e.1]; simp [dlookup]
      have hf : dlookup (e :: t1) f.1 = some f.2 := by
        rw [h f.1]; simp [dlookup]
      have hef : e.1 = f.1 := by
        rcases List.mem_cons.mp (dlookup_mem he) with heq | hmem
        · exact congrArg Prod.fst heq
        · rcases List.mem_cons.mp (dlookup_mem hf) with heq2 | hmem2
          · exact (congrArg Prod.fst heq2).symm
          · exact absurd (mem_key_of_dwf h2 hmem)
              (not_lt.mpr (le_of_lt (mem_key_of_dwf h1 hmem2)))
      have hev : e.2 = f.2 := by
        rw [hef] at he
        simp [dlookup] at he
        exact he.symm
      have hteq : t1 = t2 := by
        refine ih (List.pairwise_cons.mp h1).2 (List.pairwise_cons.mp h2).2
          (fun x => ?_)
        by_cases hx : x = e.1
        · subst hx
          rw [dlookup_tail_of_head h1, hef, dlookup_tail_of_head h2]
        · have hx2 : ¬ f.1 = x := by rw [← hef]; exact fun h' => hx h'.symm
          have hx1 : ¬ e.1 = x := fun h' => hx h'.symm
          have hhx := h x
          rw [show dlookup (e :: t1) x = dlookup t1 x by simp [dlookup, hx1],
            show dlookup (f :: t2) x = dlookup t2 x by simp [dlookup, hx2]]
            at hhx
          exact hhx
      rw [hteq, Prod.ext hef hev]

theorem mem_dinsert {d : Dict} {k v : Int} {f : Int × Int}
    (h : f ∈ dinsert d k v) : f = (k, v) ∨ f ∈ d := by
  induction d with
  | nil => simpa [dinsert] using h
  | cons e t ih =>
    by_cases h1 : k < e.1
    · rw [show dinsert (e :: t) k v = (k, v) :: e :: t by
        simp [dinsert, h1]] at h
      exact List.mem_cons.mp h
    · by_cases h2 : k = e.1
      · rw [show dinsert (e :: t) k v = (k, v) :: t by
          simp [dinsert, h1, h2]] at h
        rcases List.mem_cons.mp h with h | h
        · exact Or.inl h
        · exact Or.inr (List.mem_cons_of_mem _ h)
      · rw [show dinsert (e :: t) k v = e :: dinsert t k v by
          simp [dinsert, h1, h2]] at h
        rcases List.mem_cons.mp h with h | h
        · exact Or.inr (by simp [h])
        · rcases ih h with h | h
          · exact Or.inl h
          · exact Or.inr (List.mem_cons_of_mem _ h)

theorem dwf_dinsert {d : Dict} (h : DWF d) (k v : Int) :
    DWF (dinsert d k v) := by
  induction d with
  | nil => simp [dinsert, DWF]
  | cons e t ih =>
    rcases List.pairwise_cons.mp h with ⟨hhead, htail⟩
    by_cases h1 : k < e.1
    · rw [show dinsert (e :: t) k v = (k, v) :: e :: t by simp [dinsert, h1]]
      refine List.pairwise_cons.mpr ⟨?_, h⟩
      intro f hf
      rcases List.mem_cons.mp hf with rfl | hmem
      · exact h1
      · exact lt_trans h1 (hhead f hmem)
    · by_cases h2 : k = e.1
      · rw [show dinsert (e :: t) k v = (k, v) :: t by simp [dinsert, h1, h2]]
        refine List.pairwise_cons.mpr ⟨?_, htail⟩
        intro f hf
        rw [h2]
        exact hhead f hf
      · rw [show dinsert (e :: t) k v = e :: dinsert t k v by
          simp [dinsert, h1, h2]]
        refine List.pairwise_cons.mpr ⟨?_, ih htail⟩
        intro f hf
        rcases mem_dinsert hf with rfl | hmem
        · exact lt_of_le_of_ne (not_lt.mp h1) (Ne.symm h2)
        · exact hhead f hmem

theorem dlookup_dinsert (d : Dict) (k v x : Int) :
    dlookup (dinsert d k v) x = if x = k then some v else dlookup d x := by
  induction d with
  | nil => by_cases h : x = k <;> simp [dinsert, dlookup, h, Ne.symm]
  | cons e t ih =>
    by_cases h1 : k < e.1
    · rw [show dinsert (e :: t) k v = (k, v) :: e :: t by simp [dinsert, h1]]
      by_cases h : x = k
      · simp [dlookup, h]
      · have : ¬ k = x := fun h' => h h'.symm
        simp [dlookup, h, this]
    · by_cases h2 : k = e.1
      · rw [show dinsert (e :: t) k v = (k, v) :: t by simp [dinsert, h1, h2]]
        by_cases h : x = k
        · simp [dlookup, h]
        · have hk : ¬ k = x := fun h' => h h'.symm
          have he : ¬ e.1 = x := fun h' => h (by rw [← h', h2])
          simp [dlookup, h, hk, he]
      · rw [show dinsert (e :: t) k v = e :: dinsert t k v by
          simp [dinsert, h1, h2]]
        by_cases he : e.1 = x
        · have : ¬ x = k := fun h' => h2 (by rw [← h', he])
          simp [dlookup, he, this]
        · simp [dlookup, he, ih]

/-! ### Coefficient lemmas for dinsertAdd, daccum, add_laurent, multiply_laurent -/

theorem coeff_head_cons {e : Int × Int} {t : Dict} :
    coeff (e :: t) e.1 = e.2 := by simp [coeff, dlookup]

theorem coeff_cons_ne {e : Int × Int} {t : Dict} {x : Int} (h : ¬ e.1 = x) :
    coeff (e :: t) x = coeff t x := by simp [coeff, dlookup, h]

theorem coeff_eq_zero_of_key_lt {d : Dict} {x : Int} (h : DWF d)
    (hx : ∀ f ∈ d, x < f.1) : coeff d x = 0 :=
  coeff_eq_zero_of_lookup_none (dlookup_eq_none_of_lt hx)

theorem mem_dinsertAdd_key {d : Dict} {k v : Int} {f : Int × Int}
    (h : f ∈ dinsertAdd d k v) : f.1 = k ∨ f.1 ∈ dkeys d := by
  induction d with
  | nil =>
    simp [dinsertAdd] at h
    simp [h]
  | cons e t ih =>
    by_cases h1 : k < e.1
    · rw [show dinsertAdd (e :: t) k v = (k, v) :: e :: t by
        simp [dinsertAdd, h1]] at h
      rcases List.mem_cons.mp h with rfl | hmem
      · exact Or.inl rfl
      · exact Or.inr (List.mem_map_of_mem _ hmem)
    · by_cases h2 : k = e.1
      · rw [show dinsertAdd (e :: t) k v = (e.1, e.2 + v) :: t by
          simp [dinsertAdd, h1, h2]] at h
        rcases List.mem_cons.mp h with rfl | hmem
        · exact Or.inr (by simp [dkeys])
        · exact Or.inr (by simp [dkeys]; exact Or.inr ⟨f.2, hmem⟩)
      · rw [show dinsertAdd (e :: t) k v = e :: dinsertAdd t k v by
          simp [dinsertAdd, h1, h2]] at h
        rcases List.mem_cons.mp h with rfl | hmem
        · exact Or.inr (by simp [dkeys])
        · rcases ih hmem with h | h
          · exact Or.inl h
          · exact Or.inr (by simp [dkeys] at h ⊢; tauto)

theorem dwf_dinsertAdd {d : Dict} (h : DWF d) (k v : Int) :
    DWF (dinsertAdd d k v) := by
  induction d with
  | nil => simp [dinsertAdd, DWF]
  | cons e t ih =>
    rcases List.pairwise_cons.mp h with ⟨hhead, htail⟩
    by_cases h1 : k < e.1
    · rw [show dinsertAdd (e :: t) k v = (k, v) :: e :: t by
        simp [dinsertAdd, h1]]
      refine List.pairwise_cons.mpr ⟨?_, h⟩
      intro f hf
      rcases List.mem_cons.mp hf with rfl | hmem
      · exact h1
      · exact lt_trans h1 (hhead f hmem)
    · by_cases h2 : k = e.1
      · rw [show dinsertAdd (e :: t) k v = (e.1, e.2 + v) :: t by
          simp [dinsertAdd, h1, h2]]
        exact List.pairwise_cons.mpr ⟨fun f hf => hhead f hf, htail⟩
      · rw [show dinsertAdd (e :: t) k v = e :: dinsertAdd t k v by
          simp [dinsertAdd, h1, h2]]
        refine List.pairwise_cons.mpr ⟨?_, ih htail⟩
        intro f hf
        rcases mem_dinsertAdd_key hf with hfk | hmem
        · rw [hfk]
          exact lt_of_le_of_ne (not_lt.mp h1) (Ne.symm h2)
        · simp [dkeys] at hmem
          rcases hmem with ⟨b, hb⟩
          exact hhead (f.1, b) hb

theorem coeff_dinsertAdd {d : Dict} (h : DWF d) (k v x : Int) :
    coeff (dinsertAdd d k v) x = coeff d x + (if x = k then v else 0) := by
  induction d with
  | nil =>
    by_cases hx : x = k
    · subst hx
      simp [dinsertAdd, coeff, dlookup]
    · have : ¬ k = x := fun h' => hx h'.symm
      simp [dinsertAdd, coeff, dlookup, hx, this]
  | cons e t ih =>
    rcases List.pairwise_cons.mp h with ⟨hhead, htail⟩
    by_cases h1 : k < e.1
    · rw [show dinsertAdd (e :: t) k v = (k, v) :: e :: t by
        simp [dinsertAdd, h1]]
      by_cases hx : x = k
      · subst hx
        rw [show coeff ((x, v) :: e :: t) x = v from coeff_head_cons, if_pos rfl]
        have : coeff (e :: t) x = 0 :=
          coeff_eq_zero_of_key_lt h (fun f hf => by
            rcases List.mem_cons.mp hf with rfl | hmem
            · exact h1
            · exact lt_trans h1 (hhead f hmem))
        rw [this]
        ring
      · have hne : ¬ (k, v).1 = x := fun h' => hx h'.symm
        rw [coeff_cons_ne hne, if_neg hx]
        ring
    · by_cases h2 : k = e.1
      · rw [show dinsertAdd (e :: t) k v = (e.1, e.2 + v) :: t by
          simp [dinsertAdd, h1, h2]]
        by_cases hx : x = k
        · rw [show coeff ((e.1, e.2 + v) :: t) x = e.2 + v from by
              rw [hx, h2]; exact coeff_head_cons,
            show coeff (e :: t) x = e.2 from by
              rw [hx, h2]; exact coeff_head_cons,
            if_pos hx]
        · have hne : ¬ (e.1, e.2 + v).1 = x := fun h' =>
            hx (h'.symm.trans h2.symm)
          have hne2 : ¬ e.1 = x := hne
          rw [coeff_cons_ne hne, coeff_cons_ne hne2, if_neg hx]
          ring
      · rw [show dinsertAdd (e :: t) k v = e :: dinsertAdd t k v by
          simp [dinsertAdd, h1, h2]]
        by_cases he : e.1 = x
        · have hxk : ¬ x = k := fun h' => h2 (by rw [← h', he])
          rw [show coeff (e :: dinsertAdd t k v) x = e.2 from by
              rw [← he]; exact coeff_head_cons,
            show coeff (e :: t) x = e.2 from by
              rw [← he]; exact coeff_head_cons, if_neg hxk]
          ring
        · rw [coeff_cons_ne he, coeff_cons_ne he, ih htail]

theorem dwf_daccum {d : Dict} (hd : DWF d) :
    ∀ {acc : Dict}, DWF acc → DWF (daccum d acc) := by
  induction d with
  | nil => intro acc hacc; exact hacc
  | cons e t ih =>
    intro acc hacc
    rw [show daccum (e :: t) acc = daccum t (dinsertAdd acc e.1 e.2) from rfl]
    exact ih (List.pairwise_cons.mp hd).2 (dwf_dinsertAdd hacc e.1 e.2)

theorem coeff_daccum {d : Dict} (hd : DWF d) :
    ∀ {acc : Dict}, DWF acc → ∀ x,
      coeff (daccum d acc) x = coeff acc x + coeff d x := by
  induction d with
  | nil =>
    intro acc _ x
    simp [daccum, coeff, dlookup]
  | cons e t ih =>
    intro acc hacc x
    rcases List.pairwise_cons.mp hd with ⟨hhead, htail⟩
    rw [show daccum (e :: t) acc = daccum t (dinsertAdd acc e.1 e.2) from rfl,
      ih htail (dwf_dinsertAdd hacc e.1 e.2) x, coeff_dinsertAdd hacc]
    by_cases he : e.1 = x
    · subst he
      rw [show coeff (e :: t) e.1 = e.2 from coeff_head_cons, if_pos rfl,
        coeff_eq_zero_of_key_lt htail (fun f hf => hhead f hf)]
      ring
    · rw [coeff_cons_ne he, if_neg (fun h' => he h'.symm)]
      ring


theorem clean_filter (d : Dict) : Clean (d.filter (fun e => e.2 ≠ 0)) := by
  intro e he
  have := List.of_mem_filter he
  simpa using this

theorem dwf_filter {d : Dict} (h : DWF d) (p : Int × Int → Bool) :
    DWF (d.filter p) := List.Pairwise.sublist (List.filter_sublist d) h

theorem coeff_filter {d : Dict} (h : DWF d) (x : Int) :
    coeff (d.filter (fun e => e.2 ≠ 0)) x = coeff d x := by
  induction d with
  | nil => simp [coeff, dlookup]
  | cons e t ih =>
    rcases List.pairwise_cons.mp h with ⟨hh, ht⟩
    by_cases hz : e.2 = 0
    · rw [show (e :: t).filter (fun e => decide (e.2 ≠ 0)) =
          t.filter (fun e => decide (e.2 ≠ 0)) from by simp [hz]]
      by_cases hx : e.1 = x
      · subst hx
        rw [ih ht, coeff_head_cons, hz,
          coeff_eq_zero_of_lookup_none (dlookup_eq_none_of_lt hh)]
      · rw [ih ht, coeff_cons_ne hx]
    · rw [show (e :: t).filter (fun e => decide (e.2 ≠ 0)) =
          e :: t.filter (fun e => decide (e.2 ≠ 0)) from by simp [hz]]
      by_cases hx : e.1 = x
      · subst hx
        rw [coeff_head_cons, coeff_head_cons]
      · rw [coeff_cons_ne hx, coeff_cons_ne hx, ih ht]

theorem dwf_add_laurent {d1 d2 : Dict} (h1 : DWF d1) (h2 : DWF d2) :
    DWF (add_laurent d1 d2) :=
  dwf_filter (dwf_daccum h2 (dwf_daccum h1 (by simp [DWF]))) _

theorem clean_add_laurent (d1 d2 : Dict) : Clean (add_laurent d1 d2) :=
  clean_filter _

/-- coeff_add_laurent: `add_laurent` is the key-wise sum at the level of
coefficient functions. -/
theorem coeff_add_laurent {d1 d2 : Dict} (h1 : DWF d1) (h2 : DWF d2)
    (x : Int) : coeff (add_laurent d1 d2) x = coeff d1 x + coeff d2 x := by
  have hnil : DWF [] := by simp [DWF]
  rw [add_laurent, coeff_filter (dwf_daccum h2 (dwf_daccum h1 hnil)),
    coeff_daccum h2 (dwf_daccum h1 hnil), coeff_daccum h1 hnil]
  simp [coeff, dlookup]

theorem dwf_shiftScale {d : Dict} (h : DWF d) (e : Int × Int) :
    DWF (shiftScale e d) := by
  refine List.Pairwise.map _ (fun a b hab => ?_) h
  simpa using hab

theorem coeff_shiftScale (e : Int × Int) (d : Dict) (x : Int) :
    coeff (shiftScale e d) x = e.2 * coeff d (x - e.1) := by
  induction d with
  | nil => simp [shiftScale, coeff, dlookup]
  | cons f t ih =>
    by_cases hx : f.1 = x - e.1
    · have : e.1 + f.1 = x := by omega
      rw [shiftScale, List.map_cons,
        show coeff ((e.1 + f.1, e.2 * f.2) :: _) x = e.2 * f.2 from by
          rw [← this]; exact coeff_head_cons,
        show coeff (f :: t) (x - e.1) = f.2 from by
          rw [← hx]; exact coeff_head_cons]
    · have hne : ¬ e.1 + f.1 = x := by omega
      rw [shiftScale, List.map_cons,
        show coeff ((e.1 + f.1, e.2 * f.2) :: _) x =
          coeff (List.map _ t) x from coeff_cons_ne hne,
        coeff_cons_ne hx]
      exact ih

theorem dwf_mulAccAux {d2 : Dict} (d1 : Dict) (h2 : DWF d2) :
    ∀ {acc : Dict}, DWF acc →
      DWF (d1.foldl (fun acc e => daccum (shiftScale e d2) acc) acc) := by
  induction d1 with
  | nil => intro acc hacc; exact hacc
  | cons e t ih =>
    intro acc hacc
    exact ih (dwf_daccum (dwf_shiftScale h2 e) hacc)

theorem dwf_mulAcc {d2 : Dict} (d1 : Dict) (h2 : DWF d2) :
    DWF (mulAcc d1 d2) := dwf_mulAccAux d1 h2 (by simp [DWF])

theorem coeff_mulAccAux {d2 : Dict} (d1 : Dict) (h2 : DWF d2) (x : Int) :
    ∀ {acc : Dict}, DWF acc →
      coeff (d1.foldl (fun acc e => daccum (shiftScale e d2) acc) acc) x =
        coeff acc x + (d1.map (fun e => e.2 * coeff d2 (x - e.1))).sum := by
  induction d1 with
  | nil => intro acc _; simp
  | cons e t ih =>
    intro acc hacc
    rw [List.foldl_cons, ih (dwf_daccum (dwf_shiftScale h2 e) hacc),
      coeff_daccum (dwf_shiftScale h2 e) hacc, coeff_shiftScale,
      List.map_cons, List.sum_cons]
    ring

theorem coeff_mulAcc {d2 : Dict} (d1 : Dict) (h2 : DWF d2) (x : Int) :
    coeff (mulAcc d1 d2) x =
      (d1.map (fun e => e.2 * coeff d2 (x - e.1))).sum := by
  rw [mulAcc, coeff_mulAccAux d1 h2 x (by simp [DWF])]
  simp [coeff, dlookup]

theorem dwf_multiply_laurent {d2 : Dict} (d1 : Dict) (h2 : DWF d2) :
    DWF (multiply_laurent d1 d2) := dwf_filter (dwf_mulAcc d1 h2) _

theorem clean_multiply_laurent (d1 d2 : Dict) :
    Clean (multiply_laurent d1 d2) := clean_filter _

/-- coeff_multiply_laurent: `multiply_laurent` is the convolution at the level
of coefficient functions. -/
theorem coeff_multiply_laurent {d2 : Dict} (d1 : Dict) (h2 : DWF d2)
    (x : Int) : coeff (multiply_laurent d1 d2) x =
      (d1.map (fun e => e.2 * coeff d2 (x - e.1))).sum := by
  rw [multiply_laurent, coeff_filter (dwf_mulAcc d1 h2), coeff_mulAcc d1 h2]

/-! ### dmax, dmin, clean dicts -/

theorem dmax_isSome {d : Dict} (h : d ≠ []) : (dmax d).isSome := by
  cases d with
  | nil => exact absurd rfl h
  | cons e t => simp [dmax]

theorem dmax_spec {d : Dict} {m : Int} (h : dmax d = some m) :
    m ∈ dkeys d ∧ ∀ x ∈ dkeys d, x ≤ m := by
  induction d generalizing m with
  | nil => simp [dmax] at h
  | cons e t ih =>
    cases ht : dmax t with
    | none =>
      cases t with
      | nil =>
        simp [dmax] at h
        subst h
        simp [dkeys]
      | cons f t2 => simp [dmax] at ht
    | some m2 =>
      rw [dmax, ht] at h
      simp at h
      rcases ih ht with ⟨hmem, hle⟩
      constructor
      · rcases max_choice e.1 m2 with hc | hc <;> rw [← h, hc]
        · simp [dkeys]
        · simp [dkeys] at hmem ⊢
          tauto
      · intro x hx
        simp [dkeys] at hx
        rcases hx with rfl | ⟨b, hb⟩
        · rw [← h]; exact le_max_left _ _
        · calc x ≤ m2 := hle x (by simp [dkeys]; exact ⟨b, hb⟩)
          _ ≤ m := by rw [← h]; exact le_max_right _ _

theorem dmax_eq_of_bounds {d : Dict} {m : Int} (hmem : m ∈ dkeys d)
    (hle : ∀ x ∈ dkeys d, x ≤ m) : dmax d = some m := by
  have hne : d ≠ [] := by
    intro h
    subst h
    simp [dkeys] at hmem
  rcases Option.isSome_iff_exists.mp (dmax_isSome hne) with ⟨m2, hm2⟩
  rcases dmax_spec hm2 with ⟨hmem2, hle2⟩
  rw [hm2]
  exact congrArg some (le_antisymm (hle m2 hmem2) (hle2 m hmem))

theorem dmin_isSome {d : Dict} (h : d ≠ []) : (dmin d).isSome := by
  cases d with
  | nil => exact absurd rfl h
  | cons e t => simp [dmin]

theorem dmin_spec {d : Dict} {m : Int} (h : dmin d = some m) :
    m ∈ dkeys d ∧ ∀ x ∈ dkeys d, m ≤ x := by
  induction d generalizing m with
  | nil => simp [dmin] at h
  | cons e t ih =>
    cases ht : dmin t with
    | none =>
      cases t with
      | nil =>
        simp [dmin] at h
        subst h
        simp [dkeys]
      | cons f t2 => simp [dmin] at ht
    | some m2 =>
      rw [dmin, ht] at h
      simp at h
      rcases ih ht with ⟨hmem, hle⟩
      constructor
      · rcases min_choice e.1 m2 with hc | hc <;> rw [← h, hc]
        · simp [dkeys]
        · simp [dkeys] at hmem ⊢
          tauto
      · intro x hx
        simp [dkeys] at hx
        rcases hx with rfl | ⟨b, hb⟩
        · rw [← h]; exact min_le_left _ _
        · calc m ≤ m2 := by rw [← h]; exact min_le_right _ _
          _ ≤ x := hle x (by simp [dkeys]; exact ⟨b, hb⟩)

theorem dmin_eq_of_bounds {d : Dict} {m : Int} (hmem : m ∈ dkeys d)
    (hle : ∀ x ∈ dkeys d, m ≤ x) : dmin d = some m := by
  have hne : d ≠ [] := by
    intro h
    subst h
    simp [dkeys] at hmem
  rcases Option.isSome_iff_exists.mp (dmin_isSome hne) with ⟨m2, hm2⟩
  rcases dmin_spec hm2 with ⟨hmem2, hle2⟩
  rw [hm2]
  exact congrArg some (le_antisymm (hle2 m hmem) (hle m2 hmem2))

theorem coeff_ne_zero_of_mem_clean {d : Dict} (hc : Clean d) {x : Int}
    (hx : x ∈ dkeys d) : coeff d x ≠ 0 := by
  rcases Option.ne_none_iff_exists'.mp
    (fun hnone => by
      rcases dlookup_eq_none_iff.mp hnone with h
      simp [dkeys] at hx
      rcases hx with ⟨b, hb⟩
      exact h (x, b) hb rfl) with ⟨v, hv⟩
  have := hc _ (dlookup_mem hv)
  simpa [coeff, hv] using this

theorem mem_dkeys_of_coeff_ne_zero {d : Dict} {x : Int}
    (h : coeff d x ≠ 0) : x ∈ dkeys d := by
  cases hl : dlookup d x with
  | none => exact absurd (coeff_eq_zero_of_lookup_none hl) h
  | some v =>
    have := dlookup_mem hl
    simp [dkeys]
    exact ⟨v, this⟩

theorem coeff_eq_zero_of_not_mem {d : Dict} {x : Int}
    (h : x ∉ dkeys d) : coeff d x = 0 := by
  by_contra hne
  exact h (mem_dkeys_of_coeff_ne_zero hne)

/-- dmax_clean_coeff: the max key of a clean sorted dict is determined by its
coefficient function - the largest exponent carrying a nonzero coefficient. -/
theorem dmax_clean_coeff {d : Dict} (hc : Clean d) {m : Int}
    (hm : coeff d m ≠ 0) (habove : ∀ x, m < x → coeff d x = 0) :
    dmax d = some m := by
  refine dmax_eq_of_bounds (mem_dkeys_of_coeff_ne_zero hm) (fun x hx => ?_)
  by_contra hgt
  exact coeff_ne_zero_of_mem_clean hc hx (habove x (not_le.mp hgt))

/-- dlookup_clean: for a clean dict the lookup function is determined by the
coefficient function. -/
theorem dlookup_clean {d : Dict} (hc : Clean d) (x : Int) :
    dlookup d x = if coeff d x = 0 then none else some (coeff d x) := by
  cases hl : dlookup d x with
  | none => simp [coeff_eq_zero_of_lookup_none hl]
  | some v =>
    have hv : v ≠ 0 := hc _ (dlookup_mem hl)
    have : coeff d x = v := by simp [coeff, hl]
    rw [this, if_neg hv]

/-- coeff_ext_clean: two clean sorted dicts with the same coefficient function
are equal. -/
theorem coeff_ext_clean {d1 d2 : Dict} (h1 : DWF d1) (h2 : DWF d2)
    (hc1 : Clean d1) (hc2 : Clean d2)
    (h : ∀ x, coeff d1 x = coeff d2 x) : d1 = d2 :=
  dlookup_ext h1 h2 (fun x => by
    rw [dlookup_clean hc1, dlookup_clean hc2, h x])

/-! ### simplify, multiply by a monomial, positive_laurent -/

theorem simplify_run_clean {d : Dict} (h : Clean d) :
    simplify_run d = (some d, d) := by
  induction d with
  | nil => rfl
  | cons e t ih =>
    have he : ¬ e.2 = 0 := h e (List.mem_cons_self _ _)
    have ht : Clean t := fun f hf => h f (List.mem_cons_of_mem _ hf)
    rw [simplify_run, if_neg he, ih ht]

/-- dmin_clean_coeff: the min key of a clean dict is determined by its
coefficient function - the smallest exponent carrying a nonzero coefficient. -/
theorem dmin_clean_coeff {d : Dict} (hc : Clean d) {m : Int}
    (hm : coeff d m ≠ 0) (hbelow : ∀ x, x < m → coeff d x = 0) :
    dmin d = some m := by
  refine dmin_eq_of_bounds (mem_dkeys_of_coeff_ne_zero hm) (fun x hx => ?_)
  by_contra hgt
  exact coeff_ne_zero_of_mem_clean hc hx (hbelow x (not_le.mp hgt))

/-! ### Claim theorems -/

/-- C7: the Python-3 `simplify_laurent` crashes on its documented job. On the
dict {0: 0} the loop pops the zero entry out of the dict it is iterating over,
so the next iterator step raises RuntimeError (outcome `none`) and the
argument is left mutated to {} instead of the documented return of the dict
with zero-coefficient entries removed. -/
theorem C7_simplify_crash :
    simplify_laurent [(0, 0)] = none ∧ simplify_run [(0, 0)] = (none, []) := by
  constructor <;> rfl

/-- C3: SimpleKnot(2,1,1).alexander_polynomial evaluates to exactly {0: 1}. -/
theorem C3_simple_knot_2_1_1 : simple_alexander 100 2 1 1 = some [(0, 1)] := by
  decide

/-- C1 counterexample: the claim swaps the two variants. In the code the
Hedden variant is the one with the third base case - on the HeddenKnot(2,1)
instance (abelianization image of "a" is 3) the single letter "A" yields
{3: -1}, not {0: 0} - while the Simple variant distinguishes only "a" from
everything else, so on the SimpleKnot(2,1,1) instance (image of "a" is 1) the
letter "A" yields {0: 0}, not {abelianization("a"): -1} = {1: -1}. -/
theorem C1_counterexample :
    fda_hedden (abelianization (hedden_relator 2 1)) ['A'] = some [(3, -1)] ∧
    some [((3 : Int), (-1 : Int))] ≠ some [((0 : Int), (0 : Int))] ∧
    fda_simple (abelianization (simple_relator 2 1 1)) ['A'] = some [(0, 0)] ∧
    (abelianization (simple_relator 2 1 1)).ima = 1 ∧
    some [((0 : Int), (0 : Int))] ≠ some [((1 : Int), (-1 : Int))] := by
  refine ⟨by decide, by decide, by decide, by decide, by decide⟩

/-- C1 amended: for every abelianization dict, both variants map "a" to {0:1}
and "b" to {0:0}; the Simple-knot variant distinguishes only two base cases,
so "A" and "B" also yield {0:0}, while the Hedden-knot variant has the
explicit third case sending "A" (and any other letter) to
{abelianization("a"): -1}. -/
theorem C1_base_cases (ab : GenImages) :
    fda_hedden ab ['a'] = some [(0, 1)] ∧
    fda_hedden ab ['b'] = some [(0, 0)] ∧
    fda_hedden ab ['A'] = some [(ab.ima, -1)] ∧
    fda_hedden ab ['B'] = some [(ab.ima, -1)] ∧
    fda_simple ab ['a'] = some [(0, 1)] ∧
    fda_simple ab ['b'] = some [(0, 0)] ∧
    fda_simple ab ['A'] = some [(0, 0)] ∧
    fda_simple ab ['B'] = some [(0, 0)] := by
  refine ⟨rfl, rfl, rfl, rfl, rfl, rfl, rfl, rfl⟩

/-- C9: `add_laurent` computes the coefficient-wise sum over the union of the
key sets, drops every zero-coefficient entry, and on the spec's concrete
example gives {1:1, 3:1}. -/
theorem C9_add_laurent :
    (∀ (p1 p2 : Dict), DWF p1 → DWF p2 →
      (∀ x, coeff (add_laurent p1 p2) x = coeff p1 x + coeff p2 x) ∧
      Clean (add_laurent p1 p2)) ∧
    add_laurent [(1, 1), (2, -1)] [(2, 1), (3, 1)] = [(1, 1), (3, 1)] :=
  ⟨fun _ _ h1 h2 => ⟨coeff_add_laurent h1 h2, clean_add_laurent _ _⟩,
    by decide⟩

/-- C9 witness: the coefficient-sum law instantiated at {0:2} + {0:-2, 1:1}
and exponent 1. -/
theorem C9_witness :
    coeff (add_laurent [(0, 2)] [(0, -2), (1, 1)]) 1 =
      coeff [(0, 2)] 1 + coeff [(0, -2), (1, 1)] 1 :=
  (C9_add_laurent.1 [(0, 2)] [(0, -2), (1, 1)]
    (by decide) (by decide)).1 1

/-- C8: `positive_laurent` fails on the empty dict (ValueError from `min`),
and on a non-empty simplified Laurent polynomial it returns the product with
the monomial t^(-min), whose minimum exponent is 0. -/
theorem C8_positive_laurent :
    positive_laurent [] = none ∧
    ∀ (d : Dict) (mn : Int), DWF d → Clean d → dmin d = some mn →
      positive_laurent d = some (multiply_laurent [(-mn, 1)] d) ∧
      dmin (multiply_laurent [(-mn, 1)] d) = some 0 := by
  refine ⟨rfl, fun d mn hw hc hmn => ⟨by rw [positive_laurent, hmn], ?_⟩⟩
  rcases dmin_spec hmn with ⟨hmem, hbound⟩
  have hcoeff : ∀ x, coeff (multiply_laurent [(-mn, 1)] d) x =
      coeff d (x + mn) := by
    intro x
    rw [coeff_multiply_laurent _ hw x]
    simp [sub_neg_eq_add]
  refine dmin_clean_coeff (clean_multiply_laurent _ _) ?_ ?_
  · rw [hcoeff 0]
    simpa using coeff_ne_zero_of_mem_clean hc hmem
  · intro x hx
    rw [hcoeff x]
    refine coeff_eq_zero_of_not_mem (fun hmem2 => ?_)
    have := hbound _ hmem2
    omega

/-- C8 witness: positive_laurent at the one-entry dict {-2: 5}. -/
theorem C8_witness :
    positive_laurent [(-2, 5)] =
      some (multiply_laurent [(-(-2 : Int), 1)] [(-2, 5)]) ∧
    dmin (multiply_laurent [(-(-2 : Int), 1)] [(-2, 5)]) = some 0 :=
  C8_positive_laurent.2 [(-2, 5)] (-2) (by decide) (by decide) (by decide)

/-- supSum d is min(keys) + max(keys), `none` on the empty dict; it is 0 when
the support is symmetric about 0 and 1 when it is symmetric about 1/2. -/
def supSum (d : Dict) : Option Int :=
  match dmin d, dmax d with
  | some a, some b => some (a + b)
  | _, _ => none

/-- C4 counterexample: HeddenKnot(2,1) is built from valid parameters, but the
coefficients of its alexander_polynomial sum to 2, not to +1 or -1. -/
theorem C4_counterexample :
    (hedden_alexander 2 1).map coeffSum = some 2 ∧
    (2 : Int) ≠ 1 ∧ (2 : Int) ≠ -1 := by decide

/-- c4_simple_ok p q k states the simple-knot half of the amended C4 sweep
property for one parameter triple: when the parameters are valid and
additionally gcd(p,k) = 1, the coefficients of
SimpleKnot(p,q,k).alexander_polynomial sum to +1. -/
def c4_simple_ok (p q k : Nat) : Prop :=
  0 < q → Nat.gcd p q = 1 → 0 < k → Nat.gcd p k = 1 →
    (simple_alexander 400 p q k).map coeffSum = some 1

instance (p q k : Nat) : Decidable (c4_simple_ok p q k) := by
  unfold c4_simple_ok; infer_instance

set_option maxHeartbeats 3000000 in
/-- C4 amended: over the sweep of valid parameters with p < 9 (p > 0,
0 < q < p, gcd(p,q) = 1, 0 < k < p), the coefficient sum of
HeddenKnot(p,q).alexander_polynomial is p (the order of the homology of the
lens space), not ±1, and the coefficient sum of
SimpleKnot(p,q,k).alexander_polynomial is +1 whenever gcd(p,k) = 1. (Without
gcd(p,k) = 1 the simple-knot sum can also differ from ±1: SimpleKnot(4,1,2)
sums to 2.) -/
theorem C4_sweep :
    (∀ p < 9, ∀ q < p, 0 < q → Nat.gcd p q = 1 →
      (hedden_alexander p q).map coeffSum = some (p : Int)) ∧
    (∀ p < 9, ∀ q < p, ∀ k < p, c4_simple_ok p q k) := by
  constructor
  · decide
  · decide

/-- C4 witness: the sweep instantiated at p = 2, q = 1, k = 1. -/
theorem C4_witness :
    (hedden_alexander 2 1).map coeffSum = some ((2 : Nat) : Int) ∧
    (simple_alexander 400 2 1 1).map coeffSum = some 1 := by
  have h : c4_simple_ok 2 1 1 :=
    C4_sweep.2 2 (by decide) 1 (by decide) 1 (by decide)
  exact ⟨C4_sweep.1 2 (by decide) 1 (by decide) (by decide) (by decide),
    h (by decide) (by decide) (by decide) (by decide)⟩

/-- C5 counterexample: HeddenKnot(2,1).alexander_polynomial is
{-4:1, -1:1, 2:1, 5:-1}: its minimum exponent -4 is not the negation of its
maximum exponent 5, so the support is not symmetric about 0. -/
theorem C5_counterexample :
    hedden_alexander 2 1 = some [(-4, 1), (-1, 1), (2, 1), (5, -1)] ∧
    dmin [((-4 : Int), (1 : Int)), (-1, 1), (2, 1), (5, -1)] = some (-4) ∧
    dmax [((-4 : Int), (1 : Int)), (-1, 1), (2, 1), (5, -1)] = some 5 ∧
    (-4 : Int) ≠ -5 := by decide

/-- NearlySymmetric o holds when the pipeline returned a polynomial whose
support satisfies min + max = 0 (symmetric about 0) or min + max = 1
(symmetric about 1/2). -/
def NearlySymmetric (o : Option Dict) : Prop :=
  o.bind supSum = some 0 ∨ o.bind supSum = some 1

instance (o : Option Dict) : Decidable (NearlySymmetric o) := by
  unfold NearlySymmetric; infer_instance

/-- c5_simple_ok p q k states the simple-knot half of the amended C5 sweep
property for one parameter triple: when the parameters are valid, the support
of SimpleKnot(p,q,k).alexander_polynomial satisfies min + max = 0 or 1. -/
def c5_simple_ok (p q k : Nat) : Prop :=
  0 < q → Nat.gcd p q = 1 → 0 < k →
    NearlySymmetric (simple_alexander 400 p q k)

instance (p q k : Nat) : Decidable (c5_simple_ok p q k) := by
  unfold c5_simple_ok; infer_instance

set_option maxHeartbeats 3000000 in
/-- C5 amended: over the sweep of valid parameters with p < 9, the support of
every exposed alexander_polynomial satisfies min + max = 0 or min + max = 1:
`symmetrize_laurent` recenters with the floor (max+min)//2, which leaves the
support symmetric about 0 exactly when the span of the normalized polynomial
is even, and symmetric about 1/2 otherwise (as for HeddenKnot(2,1) and
SimpleKnot(4,1,2)). -/
theorem C5_sweep :
    (∀ p < 9, ∀ q < p, 0 < q → Nat.gcd p q = 1 →
      NearlySymmetric (hedden_alexander p q)) ∧
    (∀ p < 9, ∀ q < p, ∀ k < p, c5_simple_ok p q k) := by
  constructor
  · decide
  · decide

/-- C5 witness: the sweep instantiated at p = 3, q = 2, k = 1. -/
theorem C5_witness :
    NearlySymmetric (hedden_alexander 3 2) ∧
    NearlySymmetric (simple_alexander 400 3 2 1) := by
  have h : c5_simple_ok 3 2 1 :=
    C5_sweep.2 3 (by decide) 2 (by decide) 1 (by decide)
  exact ⟨C5_sweep.1 3 (by decide) 2 (by decide) (by decide) (by decide),
    h (by decide) (by decide) (by decide)⟩

/-! ### The write trace of divide_laurent -/

/-- divide_trace records the successive quotient writes (k, quotient[k]) that
`divide_laurent` performs on a given dividend and divisor, ending with the
forced write (0, 1). The trajectory does not depend on the quotient
accumulator: the only value the algorithm reads back from the quotient is the
coefficient it has just written. -/
def divide_trace : Nat → Dict → Dict → Option (List (Int × Int))
  | 0, _, _ => none
  | fuel + 1, poly1, poly2 =>
    match dmax poly1, dmax poly2 with
    | some m1, some m2 =>
      let k := m1 - m2
      if k = 0 then some [(0, 1)]
      else
        if coeff poly2 m2 = 0 then none
        else
          let c := int_div_trunc (coeff poly1 m1) (coeff poly2 m2)
          (divide_trace fuel
            (add_laurent poly1 (multiply_laurent [(k, -c)] poly2))
            poly2).map (fun tr => (k, c) :: tr)
    | _, _ => none

/-- divide_laurent_eq_trace: divide_laurent is exactly the fold of its write
trace over the initial quotient accumulator. -/
theorem divide_laurent_eq_trace (fuel : Nat) (poly1 poly2 quotient : Dict) :
    divide_laurent fuel poly1 poly2 quotient =
      (divide_trace fuel poly1 poly2).map
        (fun tr => tr.foldl (fun d e => dinsert d e.1 e.2) quotient) := by
  induction fuel generalizing poly1 quotient with
  | zero => rfl
  | succ fuel ih =>
    rw [divide_laurent, divide_trace]
    cases h1 : dmax poly1 with
    | none => rfl
    | some m1 =>
      cases h2 : dmax poly2 with
      | none => rfl
      | some m2 =>
        by_cases hk : m1 - m2 = 0
        · simp [hk]
        · by_cases hz : coeff poly2 m2 = 0
          · simp [hk, hz]
          · simp only [hk, hz, if_neg, if_false, ite_false]
            rw [ih]
            cases divide_trace fuel
              (add_laurent poly1 (multiply_laurent
                [(m1 - m2, -int_div_trunc (coeff poly1 m1) (coeff poly2 m2))]
                poly2)) poly2 with
            | none => simp
            | some tr => simp

/-- traceLast tr x is the last value written for key x in the trace tr, if
any; it is what key x holds after folding the trace into a dict. -/
def traceLast : List (Int × Int) → Int → Option Int
  | [], _ => none
  | e :: tr, x =>
    match traceLast tr x with
    | some v => some v
    | none => if e.1 = x then some e.2 else none

theorem dlookup_foldl_dinsert (tr : List (Int × Int)) (q : Dict) (x : Int) :
    dlookup (tr.foldl (fun d e => dinsert d e.1 e.2) q) x =
      match traceLast tr x with
      | some v => some v
      | none => dlookup q x := by
  induction tr generalizing q with
  | nil => simp [traceLast]
  | cons e tr ih =>
    rw [List.foldl_cons, ih, traceLast]
    cases traceLast tr x with
    | some v => simp
    | none =>
      simp only
      rw [dlookup_dinsert]
      by_cases he : e.1 = x
      · simp [he]
      · have : ¬ x = e.1 := fun h' => he h'.symm
        simp [he, this]

theorem dwf_foldl_dinsert (tr : List (Int × Int)) {q : Dict} (h : DWF q) :
    DWF (tr.foldl (fun d e => dinsert d e.1 e.2) q) := by
  induction tr generalizing q with
  | nil => exact h
  | cons e tr ih => exact ih (dwf_dinsert h e.1 e.2)

/-- divide_laurent_rerun: if a divide_laurent run from an empty quotient
accumulator returns Q, rerunning it on the same dividend and divisor with the
accumulator still holding Q (the state the shared default argument is left in)
returns the same Q. -/
theorem divide_laurent_rerun {fuel : Nat} {poly1 poly2 Q : Dict}
    (h : divide_laurent fuel poly1 poly2 [] = some Q) :
    divide_laurent fuel poly1 poly2 Q = some Q := by
  rw [divide_laurent_eq_trace] at h ⊢
  cases htr : divide_trace fuel poly1 poly2 with
  | none => rw [htr] at h; simp at h
  | some tr =>
    simp at h ⊢
    rcases h with ⟨a, ha, hfold⟩
    rw [htr] at ha
    injection ha with ha
    subst ha
    rw [← hfold]
    refine dlookup_ext
      (dwf_foldl_dinsert tr (dwf_foldl_dinsert tr (by simp [DWF])))
      (dwf_foldl_dinsert tr (by simp [DWF])) (fun x => ?_)
    rw [dlookup_foldl_dinsert, dlookup_foldl_dinsert]
    cases traceLast tr x with
    | some v => simp
    | none => simp

/-- C6 counterexample: the claim that no operation changes the observable
value of its arguments is false: on the dict {2:0, 5:7} `simplify_laurent`
pops the entry 2:0 out of its argument and then raises, leaving the caller's
dict equal to {5:7}, observably different from the dict passed in. -/
theorem C6_counterexample :
    simplify_run [(2, 0), (5, 7)] = (none, [(5, 7)]) ∧
    ([((5 : Int), (7 : Int))] : Dict) ≠ [(2, 0), (5, 7)] := by decide

/-- C6 amended: add, multiply, positive_normalize, symmetrize and all_ones are
pure functions of their inputs, and simplify returns its argument unchanged
when no coefficient is zero (when some coefficient is zero it instead mutates
the argument and raises); divide retains its quotient accumulator between
calls when left to the shared default, yet calling divide twice in succession
on the same pair of polynomials returns the same quotient both times: a first
run from the empty accumulator returning Q is reproduced by a second run whose
accumulator still holds Q. -/
theorem C6_determinism :
    (∀ d : Dict, Clean d → simplify_run d = (some d, d)) ∧
    (∀ (fuel : Nat) (poly1 poly2 Q : Dict),
      divide_laurent fuel poly1 poly2 [] = some Q →
      divide_laurent fuel poly1 poly2 Q = some Q) :=
  ⟨fun _ h => simplify_run_clean h,
    fun _ _ _ _ h => divide_laurent_rerun h⟩

/-- C6 witness: simplify at the clean dict {1:2}, and the division
allones(3) / allones(3) rerun on its own output quotient {0:1}. -/
theorem C6_witness :
    simplify_run [(1, 2)] = (some [(1, 2)], [(1, 2)]) ∧
    divide_laurent 5 (allones 3) (allones 3) [(0, 1)] = some [(0, 1)] :=
  ⟨C6_determinism.1 [(1, 2)] (by decide),
    C6_determinism.2 5 (allones 3) (allones 3) [(0, 1)] (by decide)⟩

/-! ### Exactness of divide_laurent on products -/

theorem sum_ite_key {p2 : Dict} (h2 : DWF p2) (y c : Int) :
    (p2.map (fun f => f.2 * (if f.1 = y then c else 0))).sum =
      coeff p2 y * c := by
  induction p2 with
  | nil => simp [coeff, dlookup]
  | cons f t ih =>
    rcases List.pairwise_cons.mp h2 with ⟨hh, ht⟩
    by_cases hf : f.1 = y
    · rw [List.map_cons, List.sum_cons, if_pos hf,
        show coeff (f :: t) y = f.2 from by rw [← hf]; exact coeff_head_cons]
      have hz : (t.map (fun g => g.2 * (if g.1 = y then c else 0))).sum = 0 :=
        List.sum_eq_zero (fun v hv => by
          rcases List.mem_map.mp hv with ⟨g, hg, rfl⟩
          have hlt := hh g hg
          rw [if_neg (by omega), mul_zero])
      rw [hz]
      ring
    · rw [List.map_cons, List.sum_cons, if_neg hf, mul_zero, zero_add,
        ih ht, coeff_cons_ne hf]

theorem sum_map_add (l : Dict) (g1 g2 : Int × Int → Int) :
    (l.map (fun f => g1 f + g2 f)).sum = (l.map g1).sum + (l.map g2).sum := by
  induction l with
  | nil => simp
  | cons f t ih =>
    simp only [List.map_cons, List.sum_cons, ih]
    ring

theorem mul_coeff_above {p2 q : Dict} {m2 mq : Int} (hq : DWF q)
    (htop2 : ∀ f ∈ p2, f.1 ≤ m2) (htopq : ∀ y, mq < y → coeff q y = 0) :
    ∀ x, m2 + mq < x → coeff (multiply_laurent p2 q) x = 0 := by
  intro x hx
  rw [coeff_multiply_laurent _ hq]
  refine List.sum_eq_zero (fun v hv => ?_)
  rcases List.mem_map.mp hv with ⟨f, hf, rfl⟩
  rw [htopq _ (by have := htop2 f hf; omega), mul_zero]

theorem mul_coeff_top {p2 q : Dict} {m2 mq : Int} (h2 : DWF p2) (hq : DWF q)
    (htop2 : ∀ f ∈ p2, f.1 ≤ m2) (htopq : ∀ y, mq < y → coeff q y = 0) :
    coeff (multiply_laurent p2 q) (m2 + mq) = coeff p2 m2 * coeff q mq := by
  rw [coeff_multiply_laurent _ hq,
    show p2.map (fun f => f.2 * coeff q (m2 + mq - f.1)) =
      p2.map (fun f => f.2 * (if f.1 = m2 then coeff q mq else 0)) from
      List.map_congr_left (fun f hf => by
        by_cases hf1 : f.1 = m2
        · rw [if_pos hf1, hf1, show m2 + mq - m2 = mq by ring]
        · rw [if_neg hf1, htopq _ (by have := htop2 f hf; omega)]),
    sum_ite_key h2]

theorem coeff_append_single {l : Dict} {m c : Int}
    (h : DWF (l ++ [(m, c)])) (y : Int) :
    coeff (l ++ [(m, c)]) y = coeff l y + (if y = m then c else 0) := by
  induction l with
  | nil =>
    simp only [List.nil_append]
    by_cases hy : y = m
    · rw [if_pos hy,
        show coeff [(m, c)] y = c from by rw [hy]; exact coeff_head_cons]
      simp [coeff, dlookup]
    · have hmy : ¬ m = y := fun h' => hy h'.symm
      rw [if_neg hy, coeff_cons_ne hmy]
      simp [coeff, dlookup]
  | cons f t ih =>
    rcases List.pairwise_cons.mp h with ⟨hh, ht⟩
    by_cases hf : f.1 = y
    · have hfm : f.1 < m := hh (m, c) (by simp)
      rw [List.cons_append,
        show coeff (f :: (t ++ [(m, c)])) y = f.2 from by
          rw [← hf]; exact coeff_head_cons,
        show coeff (f :: t) y = f.2 from by rw [← hf]; exact coeff_head_cons,
        if_neg (by omega)]
      ring
    · rw [List.cons_append, coeff_cons_ne hf, coeff_cons_ne hf, ih ht]

theorem foldr_dinsert_self {q : Dict} (h : DWF q) :
    q.foldr (fun e d => dinsert d e.1 e.2) [] = q := by
  induction q with
  | nil => rfl
  | cons e t ih =>
    rcases List.pairwise_cons.mp h with ⟨hh, ht⟩
    rw [List.foldr_cons, ih ht]
    cases t with
    | nil => rfl
    | cons f t2 =>
      have := hh f (by simp)
      simp [dinsert, this]

theorem dwf_cons_front {a : Int × Int} {t : Dict} {e : Int × Int}
    (h : DWF (a :: (t ++ [e]))) : DWF (a :: t) := by
  rcases List.pairwise_cons.mp h with ⟨hh, ht⟩
  exact List.pairwise_cons.mpr
    ⟨fun f hf => hh f (by simp [hf]), (List.pairwise_append.mp ht).1⟩

theorem divide_laurent_step {fuel : Nat} {p1 p2 quot : Dict} {m1 m2 : Int}
    (h1 : dmax p1 = some m1) (h2 : dmax p2 = some m2) (hk : ¬ m1 - m2 = 0)
    (hb : ¬ coeff p2 m2 = 0) :
    divide_laurent (fuel + 1) p1 p2 quot =
      divide_laurent fuel
        (add_laurent p1 (multiply_laurent
          [(m1 - m2, -(int_div_trunc (coeff p1 m1) (coeff p2 m2)))] p2))
        p2 (dinsert quot (m1 - m2)
          (int_div_trunc (coeff p1 m1) (coeff p2 m2))) := by
  simp [divide_laurent, h1, h2, hk, hb]

theorem divide_laurent_last {fuel : Nat} {p1 p2 quot : Dict} {m2 : Int}
    (h1 : dmax p1 = some m2) (h2 : dmax p2 = some m2) :
    divide_laurent (fuel + 1) p1 p2 quot = some (dinsert quot 0 1) := by
  simp [divide_laurent, h1, h2]

/-- divide_exact_aux: running divide_laurent on the product p2 * q with q a
sorted zero-free dict of the form {0:1} plus higher terms peels the terms of q
off the product from the top down and writes them into the quotient
accumulator, the constant term being supplied by the forced final write of 1. -/
theorem divide_exact_aux {p2 : Dict} {m2 : Int} (h2 : DWF p2)
    (hm2 : dmax p2 = some m2) (hb : coeff p2 m2 ≠ 0) :
    ∀ (hi : Dict), DWF ((0, 1) :: hi) → Clean hi →
      ∀ (quot : Dict) (fuel : Nat), hi.length + 1 ≤ fuel →
        divide_laurent fuel (multiply_laurent p2 ((0, 1) :: hi)) p2 quot =
          some (((0, 1) :: hi).foldr (fun e d => dinsert d e.1 e.2) quot) := by
  have htop2 : ∀ f ∈ p2, f.1 ≤ m2 :=
    fun f hf => (dmax_spec hm2).2 f.1 (List.mem_map_of_mem _ hf)
  intro hi
  induction hi using List.reverseRecOn with
  | nil =>
    intro hq _ quot fuel hfuel
    cases fuel with
    | zero => omega
    | succ f =>
      have hqtop : ∀ y, (0 : Int) < y → coeff [((0 : Int), (1 : Int))] y = 0 := by
        intro y hy
        rw [coeff_cons_ne (show ¬ ((0 : Int), (1 : Int)).1 = y by simp; omega)]
        simp [coeff, dlookup]
      have hc0 : coeff [((0 : Int), (1 : Int))] 0 = 1 := coeff_head_cons
      have hmt : coeff (multiply_laurent p2 [(0, 1)]) (m2 + 0) =
          coeff p2 m2 * 1 := by
        rw [mul_coeff_top h2 hq htop2 hqtop, hc0]
      have hd1 : dmax (multiply_laurent p2 [(0, 1)]) = some m2 := by
        refine dmax_clean_coeff (clean_multiply_laurent _ _) ?_ ?_
        · rw [show (m2 : Int) = m2 + 0 by ring, hmt]
          simpa using hb
        · intro x hx
          exact mul_coeff_above hq htop2 hqtop x (by omega)
      rw [divide_laurent_last hd1 hm2]
      rfl
  | append_singleton t e ih =>
    intro hq hclean quot fuel hfuel
    cases fuel with
    | zero => simp at hfuel
    | succ f =>
      rcases List.pairwise_cons.mp hq with ⟨hh0, htl⟩
      have hm_pos : (0 : Int) < e.1 := hh0 e (by simp)
      have hc : e.2 ≠ 0 := hclean e (by simp)
      have hkeys : ∀ f ∈ (0, 1) :: (t ++ [e]), f.1 ≤ e.1 := by
        intro f hf
        rcases List.mem_cons.mp hf with rfl | hf2
        · simpa using le_of_lt hm_pos
        · rcases List.mem_append.mp hf2 with hft | hfe
          · exact le_of_lt
              ((List.pairwise_append.mp htl).2.2 f hft e (by simp))
          · simp at hfe
            rw [hfe]
      have hqtop : ∀ y, e.1 < y →
          coeff ((0, 1) :: (t ++ [e])) y = 0 := by
        intro y hy
        refine coeff_eq_zero_of_not_mem (fun hmem => ?_)
        simp only [dkeys] at hmem
        rcases List.mem_map.mp hmem with ⟨g, hg, hgy⟩
        have := hkeys g hg
        omega
      have hsplit : ∀ y, coeff ((0, 1) :: (t ++ [e])) y =
          coeff ((0, 1) :: t) y + (if y = e.1 then e.2 else 0) := by
        intro y
        rw [show ((0 : Int), (1 : Int)) :: (t ++ [e]) =
            (((0 : Int), (1 : Int)) :: t) ++ [(e.1, e.2)] from by simp]
        exact coeff_append_single (by simpa using hq) y
      have hcq : coeff ((0, 1) :: (t ++ [e])) e.1 = e.2 := by
        have hnot : coeff ((0, 1) :: t) e.1 = 0 := by
          refine coeff_eq_zero_of_not_mem (fun hmem => ?_)
          simp only [dkeys] at hmem
          rcases List.mem_map.mp hmem with ⟨g, hg, hgy⟩
          rcases List.mem_cons.mp hg with rfl | hgt
          · simp at hgy
            omega
          · have := (List.pairwise_append.mp htl).2.2 g hgt e (by simp)
            omega
        rw [hsplit e.1, if_pos rfl, hnot, zero_add]
      have hmt : coeff (multiply_laurent p2 ((0, 1) :: (t ++ [e])))
          (m2 + e.1) = coeff p2 m2 * e.2 := by
        rw [mul_coeff_top h2 hq htop2 hqtop, hcq]
      have hd1 : dmax (multiply_laurent p2 ((0, 1) :: (t ++ [e]))) =
          some (m2 + e.1) := by
        refine dmax_clean_coeff (clean_multiply_laurent _ _) ?_ ?_
        · rw [hmt]
          exact mul_ne_zero hb hc
        · intro x hx
          exact mul_coeff_above hq htop2 hqtop x hx
      have hcoeff1 : coeff (multiply_laurent p2 ((0, 1) :: (t ++ [e])))
          (m2 + e.1) = coeff p2 m2 * e.2 := hmt
      have hcdiv : int_div_trunc
          (coeff (multiply_laurent p2 ((0, 1) :: (t ++ [e]))) (m2 + e.1))
          (coeff p2 m2) = e.2 := by
        rw [hcoeff1]
        exact Int.mul_tdiv_cancel_left e.2 hb
      rw [divide_laurent_step hd1 hm2 (by omega) hb]
      have harith : m2 + e.1 - m2 = e.1 := by ring
      rw [harith, hcdiv]
      have hq' : DWF ((0, 1) :: t) := dwf_cons_front hq
      have hclean' : Clean t := fun g hg =>
        hclean g (List.mem_append_left _ hg)
      have hstep : add_laurent (multiply_laurent p2 ((0, 1) :: (t ++ [e])))
          (multiply_laurent [(e.1, -e.2)] p2) =
          multiply_laurent p2 ((0, 1) :: t) := by
        refine coeff_ext_clean
          (dwf_add_laurent (dwf_multiply_laurent _ hq)
            (dwf_multiply_laurent _ h2))
          (dwf_multiply_laurent _ hq')
          (clean_add_laurent _ _) (clean_multiply_laurent _ _) (fun x => ?_)
        rw [coeff_add_laurent (dwf_multiply_laurent _ hq)
            (dwf_multiply_laurent _ h2),
          coeff_multiply_laurent _ hq, coeff_multiply_laurent _ h2,
          coeff_multiply_laurent _ hq',
          show p2.map
              (fun g => g.2 * coeff ((0, 1) :: (t ++ [e])) (x - g.1)) =
            p2.map (fun g => g.2 * coeff ((0, 1) :: t) (x - g.1) +
              g.2 * (if g.1 = x - e.1 then e.2 else 0)) from
            List.map_congr_left (fun g _ => by
              rw [hsplit (x - g.1)]
              by_cases hcond : x - g.1 = e.1
              · rw [if_pos hcond, if_pos (by omega)]
                ring
              · rw [if_neg hcond, if_neg (by omega)]
                ring),
          sum_map_add, sum_ite_key h2]
        simp only [List.map_cons, List.map_nil, List.sum_cons, List.sum_nil]
        ring
      rw [hstep]
      have hfuel' : t.length + 1 ≤ f := by
        simp [List.length_append] at hfuel
        omega
      rw [ih hq' hclean' (dinsert quot e.1 e.2) f hfuel']
      rw [show ((0 : Int), (1 : Int)) :: (t ++ [e]) =
          (((0 : Int), (1 : Int)) :: t) ++ [e] from by simp,
        List.foldr_append]
      rfl

/-- C2 counterexample: the round-trip fails because the final quotient
coefficient is forced to 1: with q = {0:3} and p2 = {0:1} (nonzero leading
coefficient), divide(multiply(p2,q), p2) = {0:1}, but simplify(q) = {0:3}. -/
theorem C2_counterexample :
    divide_laurent 9 (multiply_laurent [(0, 1)] [(0, 3)]) [(0, 1)] [] =
      some [(0, 1)] ∧
    simplify_laurent [(0, 3)] = some [(0, 3)] ∧
    some [((0 : Int), (1 : Int))] ≠ some [((0 : Int), (3 : Int))] := by
  decide

/-- C2 amended: the round-trip divide(multiply(p2,q), p2) = simplify(q) holds
for every simplified Laurent polynomial q whose lowest term is the constant
term 1 (so the forced final quotient coefficient 1 is correct and nothing
below it is dropped) and whose coefficients have absolute value at most 2^53,
and every p2 with nonzero leading coefficient, with any recursion budget of
at least one step per term of q. The coefficient bound keeps the run inside
the range where the model of `int(a/b)` is faithful: every division the code
performs on this run is int((b*c)/b) with b the leading coefficient of p2 and
c a coefficient of q, and with |c| <= 2^53 the true quotient c is exactly
representable as a float, so Python's float-mediated division returns it
exactly. Without the bound the round-trip fails in the real code - with
q = {0:1, 1:10^16+1} and p2 = {0:7} the inexact first step writes 10^16, the
uncancelled remainder forces a second write of 1 to the same key, and Python
returns {0:1, 1:1} instead of q - a second, independent reason the original
unrestricted claim is false of the program. -/
theorem C2_divide_roundtrip (q p2 : Dict) (m2 : Int) (fuel : Nat)
    (hq : DWF q) (hclean : Clean q) (hhead : q.head? = some (0, 1))
    (hsmall : ∀ e ∈ q, e.2.natAbs ≤ 2 ^ 53)
    (h2 : DWF p2) (hm2 : dmax p2 = some m2) (hb : coeff p2 m2 ≠ 0)
    (hfuel : q.length ≤ fuel) :
    divide_laurent fuel (multiply_laurent p2 q) p2 [] = some q ∧
    simplify_laurent q = some q := by
  cases q with
  | nil => simp at hhead
  | cons e hi =>
    have he : e = (0, 1) := by simpa using hhead
    subst he
    constructor
    · rw [divide_exact_aux h2 hm2 hb hi hq
        (fun g hg => hclean g (List.mem_cons_of_mem _ hg)) [] fuel
        (by simpa using hfuel)]
      rw [foldr_dinsert_self hq]
    · rw [simplify_laurent, simplify_run_clean hclean]

/-- C2 witness: the round-trip at q = {0:1, 2:3} and p2 = {0:2, 1:1}. -/
theorem C2_witness :
    divide_laurent 2 (multiply_laurent [(0, 2), (1, 1)] [(0, 1), (2, 3)])
      [(0, 2), (1, 1)] [] = some [(0, 1), (2, 3)] ∧
    simplify_laurent [(0, 1), (2, 3)] = some [(0, 1), (2, 3)] :=
  C2_divide_roundtrip [(0, 1), (2, 3)] [(0, 2), (1, 1)] 1 2
    (by decide) (by decide) (by decide) (by decide) (by decide) (by decide)
    (by decide) (by decide)

/-! ### Letter counts of the simple relator -/

theorem foldl_append_eq_flatMap {α β : Type} (l : List α) (f : α → List β) :
    ∀ acc, l.foldl (fun r i => r ++ f i) acc = acc ++ l.flatMap f := by
  induction l with
  | nil => intro acc; simp
  | cons a t ih =>
    intro acc
    rw [List.foldl_cons, ih, List.flatMap_cons, List.append_assoc]

theorem simple_relator_eq_flatMap (p q k : Nat) :
    simple_relator p q k = (List.range p).flatMap
      (fun i => if (i * q) % p < k then ['a', 'b'] else ['a']) := by
  rw [simple_relator, foldl_append_eq_flatMap, List.nil_append]

theorem countP_flatMap {α β : Type} (l : List α) (f : α → List β)
    (pr : β → Bool) :
    (l.flatMap f).countP pr = (l.map (fun a => (f a).countP pr)).sum := by
  induction l with
  | nil => simp
  | cons a t ih =>
    rw [List.flatMap_cons, List.countP_append, List.map_cons, List.sum_cons,
      ih]

theorem sum_map_one {α : Type} (l : List α) :
    (l.map (fun _ => (1 : Nat))).sum = l.length := by
  induction l with
  | nil => rfl
  | cons a t ih => simp [ih, Nat.add_comm]

theorem sum_ite_eq_countP {α : Type} (l : List α) (P : α → Prop)
    [DecidablePred P] :
    (l.map (fun i => if P i then (1 : Nat) else 0)).sum =
      l.countP (fun i => decide (P i)) := by
  induction l with
  | nil => rfl
  | cons a t ih =>
    rw [List.map_cons, List.sum_cons, ih, List.countP_cons]
    by_cases h : P a
    · simp [h, Nat.add_comm]
    · simp [h]

theorem countP_range_eq_card (n : Nat) (P : Nat → Prop) [DecidablePred P] :
    (List.range n).countP (fun i => decide (P i)) =
      ((Finset.range n).filter P).card := by
  rw [List.countP_eq_length_filter]
  rfl

/-- card_residues_lt: because i * q mod p permutes the residues 0..p-1 when
gcd(p,q) = 1, exactly k of the p residues are below k. -/
theorem card_residues_lt {p q k : Nat} (hp : 0 < p)
    (hgcd : Nat.gcd p q = 1) (hk : k ≤ p) :
    ((Finset.range p).filter (fun i => (i * q) % p < k)).card = k := by
  have hinj : ∀ i ∈ Finset.range p, ∀ j ∈ Finset.range p,
      (i * q) % p = (j * q) % p → i = j := by
    intro i hi j hj hij
    have hmod : i * q ≡ j * q [MOD p] := hij
    have := Nat.ModEq.cancel_right_of_coprime hgcd hmod
    have hi' := Finset.mem_range.mp hi
    have hj' := Finset.mem_range.mp hj
    unfold Nat.ModEq at this
    rw [Nat.mod_eq_of_lt hi', Nat.mod_eq_of_lt hj'] at this
    exact this
  have hsurj := Finset.surj_on_of_inj_on_of_card_le
    (s := Finset.range p) (t := Finset.range p)
    (fun i _ => (i * q) % p)
    (fun i _ => Finset.mem_range.mpr (Nat.mod_lt _ hp))
    (fun i j hi hj hij => hinj i hi j hj hij)
    (le_refl _)
  have hcard : ((Finset.range p).filter (fun i => (i * q) % p < k)).card =
      ((Finset.range p).filter (fun b => b < k)).card := by
    refine Finset.card_bij (fun i _ => (i * q) % p) ?_ ?_ ?_
    · intro i hi
      rcases Finset.mem_filter.mp hi with ⟨hi1, hi2⟩
      exact Finset.mem_filter.mpr
        ⟨Finset.mem_range.mpr (Nat.mod_lt _ hp), hi2⟩
    · intro i hi j hj hij
      exact hinj i (Finset.mem_filter.mp hi).1 j (Finset.mem_filter.mp hj).1
        hij
    · intro b hb
      rcases Finset.mem_filter.mp hb with ⟨hb1, hb2⟩
      rcases hsurj b hb1 with ⟨i, hi, hib⟩
      have hib2 : b = i * q % p := hib
      exact ⟨i, Finset.mem_filter.mpr ⟨hi, hib2 ▸ hb2⟩, hib2.symm⟩
  rw [hcard, show (Finset.range p).filter (fun b => b < k) =
      Finset.range k from Finset.ext (fun x => by
        simp only [Finset.mem_filter, Finset.mem_range]
        omega),
    Finset.card_range]

/-- count_simple_relator: the simple relator contains exactly p letters "a"
and, when gcd(p,q) = 1, exactly k letters "b" (and nothing else). -/
theorem count_simple_relator {p q k : Nat} (hp : 0 < p)
    (hgcd : Nat.gcd p q = 1) (hk : k ≤ p) :
    (simple_relator p q k).countP (fun c => c = 'a') = p ∧
    (simple_relator p q k).countP (fun c => ¬ c = 'a') = k ∧
    (simple_relator p q k).countP (fun c => c = 'b') = k := by
  refine ⟨?_, ?_, ?_⟩
  · rw [simple_relator_eq_flatMap, countP_flatMap,
      show (List.range p).map (fun i =>
          ((if (i * q) % p < k then ['a', 'b'] else ['a']).countP
            (fun c => c = 'a'))) =
        (List.range p).map (fun _ => (1 : Nat)) from
        List.map_congr_left (fun i _ => by
          by_cases h : (i * q) % p < k
          · rw [if_pos h]; rfl
          · rw [if_neg h]; rfl),
      sum_map_one, List.length_range]
  · rw [simple_relator_eq_flatMap, countP_flatMap,
      show (List.range p).map (fun i =>
          ((if (i * q) % p < k then ['a', 'b'] else ['a']).countP
            (fun c => ¬ c = 'a'))) =
        (List.range p).map (fun i =>
          if (i * q) % p < k then (1 : Nat) else 0) from
        List.map_congr_left (fun i _ => by
          by_cases h : (i * q) % p < k
          · rw [if_pos h, if_pos h]; rfl
          · rw [if_neg h, if_neg h]; rfl),
      sum_ite_eq_countP, countP_range_eq_card, card_residues_lt hp hgcd hk]
  · rw [simple_relator_eq_flatMap, countP_flatMap,
      show (List.range p).map (fun i =>
          ((if (i * q) % p < k then ['a', 'b'] else ['a']).countP
            (fun c => c = 'b'))) =
        (List.range p).map (fun i =>
          if (i * q) % p < k then (1 : Nat) else 0) from
        List.map_congr_left (fun i _ => by
          by_cases h : (i * q) % p < k
          · rw [if_pos h, if_pos h]; rfl
          · rw [if_neg h, if_neg h]; rfl),
      sum_ite_eq_countP, countP_range_eq_card, card_residues_lt hp hgcd hk]

/-- C10: for valid parameters (p > 0, 0 < q < p coprime with p, 0 < k < p)
the abelianization of the simple relator is exactly
{"a": k, "b": -p, "A": -k, "B": p}: the relator has p letters "a" and k
letters "b" because the residues i*q mod p permute 0..p-1, so the homology
class k is recovered as the image of "a". -/
theorem C10_abelianization_simple (p q k : Nat)
    (hp : 0 < p) (hq : 0 < q) (hqp : q < p) (hgcd : Nat.gcd p q = 1)
    (hk : 0 < k) (hkp : k < p) :
    abelianization (simple_relator p q k) =
      ⟨(k : Int), -(p : Int), -(k : Int), (p : Int)⟩ ∧
    (simple_relator p q k).countP (fun c => c = 'a') = p ∧
    (simple_relator p q k).countP (fun c => c = 'b') = k := by
  rcases count_simple_relator hp hgcd (le_of_lt hkp) with ⟨ha, hna, hb⟩
  refine ⟨?_, ha, hb⟩
  rw [abelianization, ha, hna]

/-- C10 witness: the abelianization of simple_relator(5,2,3). -/
theorem C10_witness :
    abelianization (simple_relator 5 2 3) =
      ⟨((3 : Nat) : Int), -((5 : Nat) : Int), -((3 : Nat) : Int),
        ((5 : Nat) : Int)⟩ ∧
    (simple_relator 5 2 3).countP (fun c => c = 'a') = 5 ∧
    (simple_relator 5 2 3).countP (fun c => c = 'b') = 3 :=
  C10_abelianization_simple 5 2 3 (by decide) (by decide) (by decide)
    (by decide) (by decide) (by decide)
